import Mathlib

/-!
Shallow embedding of the extraction/merge core of Poedit, covering
src/extractors/extractor.h, src/configuration.h, src/cat_update.h and
src/editing_area.cpp.  Strings (wxString) are modelled as Lean `String`
except where per-character operations of the source matter, in which case
the character-list view `List Char` is used.  Implementations that the
repository slice only declares (extractor.cpp, cat_operations.cpp,
configuration.cpp) are modelled from the spec and say so in their doc
comments.
-/

/-! ## extractor.h : error taxonomy and extraction output -/

/-- The three-value error taxonomy of extractor.h. -/
inductive ExtractionError where
  | Unspecified
  | NoSourcesFound
  | PermissionDenied
deriving DecidableEq, Repr

/-- ExtractionException from extractor.h: an error value plus the
originating file, which the constructor defaults to the empty string. -/
structure ExtractionException where
  error : ExtractionError
  file : String := ""
deriving DecidableEq, Repr

/-- ExtractionOutput from extractor.h: the path of the generated POT file
plus the parsed gettext diagnostics (modelled as an opaque record list). -/
structure ExtractionOutput where
  pot_file : String
  errors : List String := []
deriving DecidableEq, Repr

/-- The explicit operator bool of ExtractionOutput: true iff pot_file is
non-empty (the source reads: return not pot_file.empty()). -/
def ExtractionOutput.toBool (o : ExtractionOutput) : Bool :=
  !o.pot_file.isEmpty

/-! ## extractor.h : priorities and the Extractor base class -/

/-- The Priority enumeration of Extractor, with the numeric values given
by Priority.toNat below. -/
inductive Priority where
  | Highest
  | CustomExtension
  | High
  | DefaultSpecializedExtension
  | Default
deriving DecidableEq, Repr

/-- The numeric values assigned by the C++ enum class Priority. -/
def Priority.toNat : Priority → Nat
  | .Highest => 1
  | .CustomExtension => 2
  | .High => 10
  | .DefaultSpecializedExtension => 95
  | .Default => 100

/-- State of an Extractor object.  IsFileSupported and Extract are virtual
in the source, so they are modelled as function-valued fields; the claims
quantify over them. -/
structure Extractor where
  GetId : String
  m_priority : Priority
  supported : String → Bool
  extract : List String → ExtractionOutput

/-- The protected Extractor constructor, which initializes m_priority to
Priority::Default. -/
def Extractor.mk0 (id : String) (supp : String → Bool)
    (ex : List String → ExtractionOutput) : Extractor :=
  { GetId := id, m_priority := Priority.Default, supported := supp, extract := ex }

/-- GetPriority returns the stored priority. -/
def Extractor.GetPriority (e : Extractor) : Priority := e.m_priority

/-- SetPriority stores a new priority. -/
def Extractor.SetPriority (e : Extractor) (p : Priority) : Extractor :=
  { e with m_priority := p }

/-- FilterFiles, per its documentation in extractor.h: returns only those
files from the argument that are supported by this extractor. -/
def Extractor.FilterFiles (e : Extractor) (files : List String) : List String :=
  files.filter e.supported

/-- Priority comparison used to order extractors: a runs before b when
its numeric priority value is not larger. -/
def priorityLE (a b : Extractor) : Prop :=
  a.GetPriority.toNat ≤ b.GetPriority.toNat

instance : DecidableRel priorityLE := fun _ _ => Nat.decLe _ _

instance : IsTotal Extractor priorityLE := ⟨fun _ _ => Nat.le_total _ _⟩

instance : IsTrans Extractor priorityLE := ⟨fun _ _ _ => Nat.le_trans⟩

/-- Modelled from the spec: CreateAllExtractors (implemented in the
extractor.cpp that is absent from this slice) returns the registered
extractors ordered by ascending priority value with ties broken by
registration order; modelled as a stable insertion sort of the
registration list. -/
def CreateAllExtractors (regs : List Extractor) : List Extractor :=
  List.insertionSort priorityLE regs

/-- A sample legacy extractor used as a concrete test fixture. -/
def sampleExtractorA : Extractor :=
  Extractor.mk0 "legacy" (fun f => f.endsWith ".cpp") (fun _ => { pot_file := "" })

/-- A sample gettext extractor with raised priority, used as a fixture. -/
def sampleExtractorB : Extractor :=
  (Extractor.mk0 "gettext" (fun _ => true) (fun _ => { pot_file := "" })).SetPriority
    Priority.High

/-! ## configuration.h : Config getters over the key/value storage -/

/-- A typed value as held by the configuration storage. -/
inductive ConfigValue where
  | boolVal (v : Bool)
  | longVal (v : Int)
  | strVal (v : String)
deriving DecidableEq, Repr

/-- Modelled from the spec: the storage behind the Config::Read overloads
(implemented in the configuration.cpp absent from this slice) is a
key/value map, modelled as an association list. -/
abbrev ConfigStore := List (String × ConfigValue)

/-- The boolean Config::Read overload: succeeds exactly when the key is
present with a boolean value. -/
def Config.ReadBool (store : ConfigStore) (key : String) : Option Bool :=
  match store.lookup key with
  | some (ConfigValue.boolVal v) => some v
  | _ => none

/-- The private template Config::Read of configuration.h: the stored
value if the typed Read succeeds, the supplied default otherwise. -/
def Config.ReadBoolD (store : ConfigStore) (key : String) (defval : Bool) : Bool :=
  match Config.ReadBool store key with
  | some v => v
  | none => defval

/-- Config::UseTM: Read("/use_tm", true). -/
def Config.UseTM (store : ConfigStore) : Bool :=
  Config.ReadBoolD store "/use_tm" true

/-- Config::CheckForBetaUpdates: Read("/check_for_beta_updates", false). -/
def Config.CheckForBetaUpdates (store : ConfigStore) : Bool :=
  Config.ReadBoolD store "/check_for_beta_updates" false

/-- Config::ShowWarnings: Read("/show_warnings", true). -/
def Config.ShowWarnings (store : ConfigStore) : Bool :=
  Config.ReadBoolD store "/show_warnings" true

/-! ## editing_area.cpp : PreprocessEnteredTextForItem

The function operates on wxString per character (Last, append one char,
RemoveLast), so wxString is modelled here as its character list. -/

/-- PreprocessEnteredTextForItem from editing_area.cpp, with the item
replaced by its source string (the only part the function reads).  When
both the source string and the entered text are non-empty, a trailing
newline of the source is mirrored onto the entered text. -/
def PreprocessEnteredTextForItem (orig t : List Char) : List Char :=
  if !t.isEmpty && !orig.isEmpty then
    if orig.getLast! = '\n' && t.getLast! != '\n' then t ++ ['\n']
    else if orig.getLast! != '\n' && t.getLast! = '\n' then t.dropLast
    else t
  else t

/-! ## extractor.cpp models : priority partitioning, file collection,
partial-output concatenation -/

/-- Modelled from the spec: the priority-partitioning step of
ExtractWithAll (implemented in the extractor.cpp absent from this slice).
Each extractor, in list order (ascending priority), claims via
FilterFiles the files it supports from the remaining unclaimed pool;
claimed files are removed from the pool seen by later extractors.
Returns the per-extractor partitions and the final unclaimed pool. -/
def partitionFiles : List Extractor → List String →
    List (Extractor × List String) × List String
  | [], pool => ([], pool)
  | e :: es, pool =>
      let r := partitionFiles es (pool.filter (fun f => !e.supported f))
      ((e, e.FilterFiles pool) :: r.1, r.2)

/-- The per-extractor partitions computed by partitionFiles. -/
def partitions (es : List Extractor) (files : List String) :
    List (Extractor × List String) :=
  (partitionFiles es files).1

/-- The unclaimed remainder left by partitionFiles. -/
def unclaimed (es : List Extractor) (files : List String) : List String :=
  (partitionFiles es files).2

/-- The first extractor in the list that supports a given file. -/
def firstSupporting (es : List Extractor) (f : String) : Option Extractor :=
  es.find? (fun e => e.supported f)

/-- Modelled from the spec: ConcatPartials (msgcat over the partial POT
files, implemented in the extractor.cpp absent from this slice) writes
the concatenation into a fresh non-empty path in the scratch directory
and concatenates the diagnostic lists in extractor order. -/
def ConcatPartialsOut (partials : List ExtractionOutput) : ExtractionOutput :=
  { pot_file := "concatenated.pot",
    errors := (partials.map ExtractionOutput.errors).flatten }

/-- The join point of ExtractWithAll: the all-empty sentinel when no
partial output is non-empty, the concatenation otherwise. -/
def joinPartials (nonEmpty : List ExtractionOutput) : ExtractionOutput :=
  if nonEmpty.isEmpty then { pot_file := "", errors := [] }
  else ConcatPartialsOut nonEmpty

/-- Modelled from the spec: ExtractWithAll (implemented in the
extractor.cpp absent from this slice) partitions the files by priority,
skips extractors with an empty partition, runs the rest, and concatenates
the non-empty partial outputs; when every output is empty it returns the
all-empty ExtractionOutput instead of failing. -/
def Extractor.ExtractWithAll (es : List Extractor) (files : List String) :
    ExtractionOutput :=
  joinPartials
    ((((partitions es files).filter (fun p => !p.2.isEmpty)).map
        (fun p => p.1.extract p.2)).filter ExtractionOutput.toBool)

/-- SourceCodeSpec from extractor.h, with wx containers as lists. -/
structure SourceCodeSpec where
  BasePath : String := ""
  SearchPaths : List String := []
  ExcludedPaths : List String := []
  Keywords : List String := []
  Charset : String := ""
  TypeMapping : List (String × String) := []
  XHeaders : List (String × String) := []

/-- An abstract view of the disk contents CollectAllFiles walks: whether
a search path is readable and which candidate files live under a path. -/
structure FileSystem where
  readable : String → Bool
  filesUnder : String → List String

/-- Modelled from the spec: a candidate file is skipped when it matches
an excluded-path entry (prefix-or-glob matching; the prefix form is
modelled). -/
def matchesExcluded (spec : SourceCodeSpec) (f : String) : Bool :=
  spec.ExcludedPaths.any (fun e => f.startsWith e)

/-- The wxString operator< used to order the returned file list:
lexicographic comparison of the character sequences. -/
def pathLT (a b : String) : Prop := a.data < b.data

/-- The weak form of pathLT, used by the sorting step. -/
def pathLE (a b : String) : Prop := a.data ≤ b.data

instance : DecidableRel pathLT := fun a b =>
  inferInstanceAs (Decidable (a.data < b.data))

instance : DecidableRel pathLE := fun a b =>
  inferInstanceAs (Decidable (a.data ≤ b.data))

instance : IsTotal String pathLE := ⟨fun a b => le_total a.data b.data⟩

instance : IsTrans String pathLE := ⟨fun _ _ _ => le_trans⟩

/-- Modelled from the spec: CollectAllFiles (implemented in the
extractor.cpp absent from this slice) walks each search path, skips
excluded candidates, and returns the sorted deduplicated union; it fails
with NoSourcesFound when nothing remains after excludes, and with
PermissionDenied naming the search path when one cannot be read. -/
def CollectAllFiles (fs : FileSystem) (spec : SourceCodeSpec) :
    Except ExtractionException (List String) :=
  match spec.SearchPaths.find? (fun p => !fs.readable p) with
  | some p => Except.error { error := ExtractionError.PermissionDenied, file := p }
  | none =>
      let candidates := ((spec.SearchPaths.map fs.filesUnder).flatten).filter
        (fun f => !matchesExcluded spec f)
      let sorted := List.insertionSort pathLE candidates.dedup
      if sorted.isEmpty then Except.error { error := ExtractionError.NoSourcesFound }
      else Except.ok sorted

/-! ## POT entries and the msgcat union (ConcatPartials at entry level) -/

/-- One entry of a POT file: msgid, optional msgctxt, and the
source-reference comment lines. -/
structure POEntry where
  msgid : String
  context : Option String := none
  references : List String := []
deriving DecidableEq, Repr

/-- The dedup key of an entry: msgid plus context. -/
def POEntry.key (e : POEntry) : String × Option String := (e.msgid, e.context)

/-- The key sequence of an entry list. -/
def entryKeys (l : List POEntry) : List (String × Option String) :=
  l.map POEntry.key

/-- Merging reference comments of duplicate entries: keep the first-seen
references and append the unseen ones. -/
def mergeRefs (a b : List String) : List String :=
  a ++ b.filter (fun r => decide (r ∉ a))

/-- Modelled from the spec: inserting one entry into an accumulated
union — a duplicate msgid+context merges its reference comments into the
first-seen entry, a fresh key is appended at the end. -/
def insertEntry (acc : List POEntry) (e : POEntry) : List POEntry :=
  if acc.any (fun a => decide (a.key = e.key)) then
    acc.map (fun a =>
      if a.key = e.key then { a with references := mergeRefs a.references e.references }
      else a)
  else acc ++ [e]

/-- Modelled from the spec: ConcatPartials at the level of entry lists —
the union of the partial outputs in first-seen order with duplicate keys
merged. -/
def ConcatPartialsEntries (ps : List (List POEntry)) : List POEntry :=
  ps.foldl (fun acc l => l.foldl insertEntry acc) []

/-! ## cat_update.h / cat_operations models : the merge engine -/

/-- MergeBehavior from configuration.h. -/
inductive MergeBehavior where
  | Merge_None
  | Merge_FuzzyMatch
  | Merge_UseTM
deriving DecidableEq, Repr

/-- The slice of a CatalogItem the merge claims speak about. -/
structure CatalogItem where
  msgid : String
  context : Option String := none
  translation : String := ""
  isFuzzy : Bool := false
  isTranslated : Bool := false
  isModified : Bool := false
  references : List String := []
deriving DecidableEq, Repr

/-- The merge key of a catalog item: msgid plus context. -/
def CatalogItem.key (i : CatalogItem) : String × Option String := (i.msgid, i.context)

/-- The key sequence of an item list. -/
def itemKeys (l : List CatalogItem) : List (String × Option String) :=
  l.map CatalogItem.key

/-- The counts reported by a merge. -/
structure MergeStats where
  added : Nat := 0
  obsolete : Nat := 0
  fuzzyMatched : Nat := 0
deriving DecidableEq, Repr

/-- Lookup of the first catalog item with a given key. -/
def findByKey (items : List CatalogItem) (k : String × Option String) :
    Option CatalogItem :=
  items.find? (fun i => decide (i.key = k))

/-- A brand-new entry: untranslated, not fuzzy, not modified. -/
def newUntranslatedItem (e : POEntry) : CatalogItem :=
  { msgid := e.msgid, context := e.context, references := e.references }

/-- A fuzzy-matched entry: the candidate translation copied in and
flagged fuzzy. -/
def copiedFuzzyItem (e : POEntry) (src : CatalogItem) : CatalogItem :=
  { newUntranslatedItem e with
      translation := src.translation, isFuzzy := true, isTranslated := true }

/-- The matching candidate consulted for a key absent from the old
catalog: none under Merge_None, the similarity oracle under
Merge_FuzzyMatch, the translation-memory oracle under Merge_UseTM. -/
def fuzzyCandidate (behavior : MergeBehavior)
    (fuzzy tm : POEntry → Option CatalogItem) (e : POEntry) : Option CatalogItem :=
  match behavior with
  | .Merge_None => none
  | .Merge_FuzzyMatch => fuzzy e
  | .Merge_UseTM => tm e

/-- Modelled from the spec: the per-entry merge step — an exact key match
carries the old item over unchanged except for refreshed references;
otherwise the configured behavior decides between a fuzzy copy and a
brand-new untranslated entry. -/
def mergeItem (behavior : MergeBehavior) (fuzzy tm : POEntry → Option CatalogItem)
    (old : List CatalogItem) (e : POEntry) : CatalogItem :=
  match findByKey old e.key with
  | some it => { it with references := e.references }
  | none =>
      match fuzzyCandidate behavior fuzzy tm e with
      | some src => copiedFuzzyItem e src
      | none => newUntranslatedItem e

/-- Modelled from the spec: the merge algorithm behind
PerformUpdateFromSourcesSimple (implemented in the cat_operations.cpp
absent from this slice) — the new entries in order, each merged against
the old catalog, plus the added/obsolete/fuzzy-matched counts. -/
def mergeCatalog (behavior : MergeBehavior) (fuzzy tm : POEntry → Option CatalogItem)
    (old : List CatalogItem) (news : List POEntry) : List CatalogItem × MergeStats :=
  ( news.map (mergeItem behavior fuzzy tm old),
    { added := (news.filter (fun e => (findByKey old e.key).isNone)).length,
      obsolete := (old.filter (fun i => !news.any (fun e => decide (e.key = i.key)))).length,
      fuzzyMatched := (news.filter (fun e =>
        (findByKey old e.key).isNone && (fuzzyCandidate behavior fuzzy tm e).isSome)).length } )

/-! ## Concrete fixtures used by the witnesses -/

/-- An oracle that never finds a match. -/
def noOracle : POEntry → Option CatalogItem := fun _ => none

/-- A sample POT entry. -/
def entryOne : POEntry := { msgid := "Open", references := ["a.c:1"] }

/-- A second sample POT entry with a distinct key. -/
def entryTwo : POEntry := { msgid := "Save", references := ["b.c:2"] }

/-- A sample translated catalog item with the key of entryOne. -/
def itemOne : CatalogItem :=
  { msgid := "Open", translation := "Ouvrir", isTranslated := true }

/-- A sample file system fixture. -/
def sampleFS : FileSystem :=
  { readable := fun _ => true, filesUnder := fun _ => ["b.c", "a.c", "b.c"] }

/-- A sample source spec fixture with one search path. -/
def sampleSpec : SourceCodeSpec := { SearchPaths := ["src"] }

/-- A file system fixture on which every path is unreadable. -/
def deniedFS : FileSystem :=
  { readable := fun _ => false, filesUnder := fun _ => [] }

/-- A file system fixture that is readable but holds no files. -/
def emptyFS : FileSystem :=
  { readable := fun _ => true, filesUnder := fun _ => [] }

/-! ## Theorems -/

/-- C9: for a catalog item with non-empty source string and non-empty
entered text t, PreprocessEnteredTextForItem appends a newline when the
source ends in one and t does not, drops t's last character when t ends in
a newline and the source does not, and otherwise (including empty t or
empty source) returns t unchanged. -/
theorem preprocess_entered_text_spec (orig t : List Char) :
    (t = [] ∨ orig = [] → PreprocessEnteredTextForItem orig t = t) ∧
    (t ≠ [] → orig ≠ [] →
      ((orig.getLast! = '\n' ∧ t.getLast! ≠ '\n' →
          PreprocessEnteredTextForItem orig t = t ++ ['\n']) ∧
       (orig.getLast! ≠ '\n' ∧ t.getLast! = '\n' →
          PreprocessEnteredTextForItem orig t = t.dropLast) ∧
       (¬(orig.getLast! = '\n' ∧ t.getLast! ≠ '\n') →
        ¬(orig.getLast! ≠ '\n' ∧ t.getLast! = '\n') →
          PreprocessEnteredTextForItem orig t = t))) := by
  constructor
  · intro h
    unfold PreprocessEnteredTextForItem
    rcases h with h | h <;> simp [h]
  · intro ht ho
    have ht' : t.isEmpty = false := by simpa [List.isEmpty_iff] using ht
    have ho' : orig.isEmpty = false := by simpa [List.isEmpty_iff] using ho
    refine ⟨?_, ?_, ?_⟩
    · rintro ⟨h1, h2⟩
      unfold PreprocessEnteredTextForItem
      simp [ht', ho', h1, h2]
    · rintro ⟨h1, h2⟩
      unfold PreprocessEnteredTextForItem
      simp [ht', ho', h1, h2]
    · intro h1 h2
      unfold PreprocessEnteredTextForItem
      by_cases c1 : orig.getLast! = '\n' <;> by_cases c2 : t.getLast! = '\n' <;>
        simp_all [ht', ho']

/-- C9 witness: concrete evaluations through the theorem. -/
theorem preprocess_entered_text_spec_witness :
    PreprocessEnteredTextForItem ['a', '\n'] ['b'] = ['b'] ++ ['\n'] :=
  ((preprocess_entered_text_spec ['a', '\n'] ['b']).2 (by decide) (by decide)).1
    ⟨by decide, by decide⟩

/-- C4: the priority scale has Highest = 1 and Default = 100; every
Extractor is constructed with priority Default; GetPriority returns
exactly the value last set; and the extractor ordering runs lower numeric
values first, breaking ties by registration order (stably). -/
theorem extractor_priority_spec :
    (Priority.toNat Priority.Highest = 1 ∧ Priority.toNat Priority.Default = 100) ∧
    (∀ id supp ex, (Extractor.mk0 id supp ex).GetPriority = Priority.Default) ∧
    (∀ (e : Extractor) (p : Priority), (e.SetPriority p).GetPriority = p) ∧
    (∀ regs : List Extractor, (CreateAllExtractors regs).Sorted priorityLE) ∧
    (∀ regs : List Extractor, (CreateAllExtractors regs).Perm regs) ∧
    (∀ (a b : Extractor) (regs : List Extractor),
      priorityLE a b → List.Sublist [a, b] regs →
        List.Sublist [a, b] (CreateAllExtractors regs)) :=
  ⟨⟨rfl, rfl⟩, fun _ _ _ => rfl, fun _ _ => rfl,
   fun regs => List.sorted_insertionSort priorityLE regs,
   fun regs => List.perm_insertionSort priorityLE regs,
   fun _ _ _ hab hsub => List.pair_sublist_insertionSort hab hsub⟩

/-- C4 witness: the stability clause applied to two concrete extractors
registered in order of ascending priority. -/
theorem extractor_priority_spec_witness :
    List.Sublist [sampleExtractorB, sampleExtractorA]
      (CreateAllExtractors [sampleExtractorB, sampleExtractorA]) :=
  extractor_priority_spec.2.2.2.2.2 sampleExtractorB sampleExtractorA
    [sampleExtractorB, sampleExtractorA]
    (by simp [priorityLE, sampleExtractorA, sampleExtractorB, Extractor.mk0,
      Extractor.SetPriority, Extractor.GetPriority, Priority.toNat])
    (List.Sublist.refl _)

/-- C10: every Config getter routed through the private Read template
returns the stored value when its key is present in the storage and its
built-in default otherwise; in particular UseTM defaults to true,
CheckForBetaUpdates to false and ShowWarnings to true. -/
theorem config_defaults_spec :
    (∀ (store : ConfigStore) (key : String) (d v : Bool),
        store.lookup key = some (ConfigValue.boolVal v) →
          Config.ReadBoolD store key d = v) ∧
    (∀ (store : ConfigStore) (key : String) (d : Bool),
        store.lookup key = none → Config.ReadBoolD store key d = d) ∧
    (∀ (store : ConfigStore) (v : Bool),
        store.lookup "/use_tm" = some (ConfigValue.boolVal v) →
          Config.UseTM store = v) ∧
    (∀ store : ConfigStore,
        store.lookup "/use_tm" = none → Config.UseTM store = true) ∧
    (∀ store : ConfigStore,
        store.lookup "/check_for_beta_updates" = none →
          Config.CheckForBetaUpdates store = false) ∧
    (∀ store : ConfigStore,
        store.lookup "/show_warnings" = none → Config.ShowWarnings store = true) := by
  refine ⟨?_, ?_, ?_, ?_, ?_, ?_⟩
  · intro store key d v h
    simp [Config.ReadBoolD, Config.ReadBool, h]
  · intro store key d h
    simp [Config.ReadBoolD, Config.ReadBool, h]
  · intro store v h
    simp [Config.UseTM, Config.ReadBoolD, Config.ReadBool, h]
  · intro store h
    simp [Config.UseTM, Config.ReadBoolD, Config.ReadBool, h]
  · intro store h
    simp [Config.CheckForBetaUpdates, Config.ReadBoolD, Config.ReadBool, h]
  · intro store h
    simp [Config.ShowWarnings, Config.ReadBoolD, Config.ReadBool, h]

/-- C10 witness: a stored value overrides the default, and the empty
storage yields the built-in defaults. -/
theorem config_defaults_spec_witness :
    Config.UseTM [("/use_tm", ConfigValue.boolVal false)] = false ∧
    Config.UseTM [] = true ∧
    Config.CheckForBetaUpdates [] = false ∧
    Config.ShowWarnings [] = true :=
  ⟨config_defaults_spec.2.2.1 [("/use_tm", ConfigValue.boolVal false)] false (by decide),
   config_defaults_spec.2.2.2.1 [] rfl,
   config_defaults_spec.2.2.2.2.1 [] rfl,
   config_defaults_spec.2.2.2.2.2 [] rfl⟩

/-- Unfolding lemma: partitions of the empty extractor list. -/
theorem partitions_nil (pool : List String) : partitions [] pool = [] := rfl

/-- Unfolding lemma: the head extractor claims what it supports from the
pool, the tail sees the filtered pool. -/
theorem partitions_cons (e : Extractor) (es : List Extractor) (pool : List String) :
    partitions (e :: es) pool =
      (e, e.FilterFiles pool) :: partitions es (pool.filter (fun f => !e.supported f)) :=
  rfl

/-- Unfolding lemma: the unclaimed remainder of the empty extractor list. -/
theorem unclaimed_nil (pool : List String) : unclaimed [] pool = pool := rfl

/-- Unfolding lemma: the unclaimed remainder after the head extractor. -/
theorem unclaimed_cons (e : Extractor) (es : List Extractor) (pool : List String) :
    unclaimed (e :: es) pool = unclaimed es (pool.filter (fun f => !e.supported f)) :=
  rfl

/-- Every file in a partition comes from the pool. -/
theorem mem_pool_of_mem_partition :
    ∀ (es : List Extractor) (pool : List String) (p : Extractor × List String),
      p ∈ partitions es pool → ∀ f ∈ p.2, f ∈ pool := by
  intro es
  induction es with
  | nil => intro pool p hp; simp [partitions_nil] at hp
  | cons e es ih =>
    intro pool p hp f hf
    rw [partitions_cons] at hp
    rcases List.mem_cons.mp hp with hp | hp
    · subst hp
      exact List.mem_of_mem_filter hf
    · exact List.mem_of_mem_filter (ih _ p hp f hf)

/-- Every unclaimed file comes from the pool. -/
theorem mem_pool_of_mem_unclaimed :
    ∀ (es : List Extractor) (pool : List String) (f : String),
      f ∈ unclaimed es pool → f ∈ pool := by
  intro es
  induction es with
  | nil => intro pool f hf; simpa [unclaimed_nil] using hf
  | cons e es ih =>
    intro pool f hf
    rw [unclaimed_cons] at hf
    exact List.mem_of_mem_filter (ih _ f hf)

/-- A file outside the pool is claimed by no partition. -/
theorem claim_count_zero_of_not_mem (es : List Extractor) (pool : List String)
    (f : String) (h : f ∉ pool) :
    (partitions es pool).countP (fun p => decide (f ∈ p.2)) = 0 := by
  apply List.countP_eq_zero.mpr
  intro p hp
  simp only [decide_eq_true_eq]
  intro hf
  exact h (mem_pool_of_mem_partition es pool p hp f hf)

/-- A pooled file supported by some extractor is claimed exactly once and
is not left unclaimed. -/
theorem claim_count_one (es : List Extractor) :
    ∀ (pool : List String) (f : String), f ∈ pool →
      (∃ e ∈ es, e.supported f = true) →
      (partitions es pool).countP (fun p => decide (f ∈ p.2)) = 1 ∧
      f ∉ unclaimed es pool := by
  induction es with
  | nil =>
    intro pool f _ hs
    obtain ⟨e, he, _⟩ := hs
    simp at he
  | cons e es ih =>
    intro pool f hf hs
    by_cases he : e.supported f = true
    · have hmem : f ∈ e.FilterFiles pool := by
        unfold Extractor.FilterFiles
        exact List.mem_filter.mpr ⟨hf, he⟩
      have hout : f ∉ pool.filter (fun g => !e.supported g) := by
        intro hin
        have := (List.mem_filter.mp hin).2
        simp [he] at this
      constructor
      · rw [partitions_cons, List.countP_cons_of_pos]
        · rw [claim_count_zero_of_not_mem es _ f hout]
        · simpa using hmem
      · rw [unclaimed_cons]
        intro hun
        exact hout (mem_pool_of_mem_unclaimed es _ f hun)
    · have hnot : f ∉ e.FilterFiles pool := by
        unfold Extractor.FilterFiles
        intro hin
        exact he (List.mem_filter.mp hin).2
      have hin' : f ∈ pool.filter (fun g => !e.supported g) :=
        List.mem_filter.mpr ⟨hf, by simp [he]⟩
      have hs' : ∃ e' ∈ es, e'.supported f = true := by
        obtain ⟨e', he', hsupp⟩ := hs
        rcases List.mem_cons.mp he' with rfl | he'
        · exact absurd hsupp he
        · exact ⟨e', he', hsupp⟩
      have := ih _ f hin' hs'
      constructor
      · rw [partitions_cons, List.countP_cons_of_neg]
        · exact this.1
        · simpa using hnot
      · rw [unclaimed_cons]
        exact this.2

/-- A pooled file supported by no extractor is claimed by no partition
and stays in the unclaimed remainder. -/
theorem claim_count_zero_unsupported (es : List Extractor) :
    ∀ (pool : List String) (f : String), f ∈ pool →
      (∀ e ∈ es, e.supported f = false) →
      (partitions es pool).countP (fun p => decide (f ∈ p.2)) = 0 ∧
      f ∈ unclaimed es pool := by
  induction es with
  | nil =>
    intro pool f hf _
    exact ⟨by simp [partitions_nil], by simpa [unclaimed_nil] using hf⟩
  | cons e es ih =>
    intro pool f hf hs
    have he : e.supported f = false := hs e (List.mem_cons_self e es)
    have hnot : f ∉ e.FilterFiles pool := by
      unfold Extractor.FilterFiles
      intro hin
      have := (List.mem_filter.mp hin).2
      simp [he] at this
    have hin' : f ∈ pool.filter (fun g => !e.supported g) :=
      List.mem_filter.mpr ⟨hf, by simp [he]⟩
    have := ih _ f hin' (fun e' he' => hs e' (List.mem_cons_of_mem e he'))
    constructor
    · rw [partitions_cons, List.countP_cons_of_neg]
      · exact this.1
      · simpa using hnot
    · rw [unclaimed_cons]
      exact this.2

/-- The extractor owning a partition that contains a file supports the
file and is the first supporting extractor of the list. -/
theorem claimant_is_first_supporting (es : List Extractor) :
    ∀ (pool : List String) (p : Extractor × List String),
      p ∈ partitions es pool → ∀ f ∈ p.2,
        p.1.supported f = true ∧ firstSupporting es f = some p.1 := by
  induction es with
  | nil => intro pool p hp; simp [partitions_nil] at hp
  | cons e es ih =>
    intro pool p hp f hf
    rw [partitions_cons] at hp
    rcases List.mem_cons.mp hp with hp | hp
    · subst hp
      have he : e.supported f = true := by
        have := List.mem_filter.mp (by simpa [Extractor.FilterFiles] using hf)
        exact this.2
      exact ⟨he, by simp [firstSupporting, List.find?_cons_of_pos, he]⟩
    · have hsub := mem_pool_of_mem_partition es _ p hp f hf
      have he : e.supported f = false := by
        have := (List.mem_filter.mp hsub).2
        simpa using this
      have := ih _ p hp f hf
      refine ⟨this.1, ?_⟩
      unfold firstSupporting
      rw [List.find?_cons_of_neg _ (by simp [he])]
      exact this.2

/-- In a priority-sorted extractor list the first supporting extractor
has minimal priority value among all supporting extractors. -/
theorem first_supporting_min (es : List Extractor) (f : String) :
    ∀ e0, firstSupporting es f = some e0 → es.Sorted priorityLE →
      ∀ e ∈ es, e.supported f = true → priorityLE e0 e := by
  induction es with
  | nil => intro e0 h; simp [firstSupporting] at h
  | cons a es ih =>
    intro e0 h hsorted e he hsupp
    by_cases ha : a.supported f = true
    · have : e0 = a := by
        unfold firstSupporting at h
        rw [List.find?_cons_of_pos _ (by simp [ha])] at h
        exact (Option.some.injEq _ _).mp h.symm
      subst this
      rcases List.mem_cons.mp he with rfl | he
      · exact Nat.le_refl _
      · exact (List.sorted_cons.mp hsorted).1 e he
    · unfold firstSupporting at h
      rw [List.find?_cons_of_neg _ (by simp [ha])] at h
      rcases List.mem_cons.mp he with rfl | he
      · exact absurd hsupp ha
      · exact ih e0 h (List.sorted_cons.mp hsorted).2 e he hsupp

/-- C1: for every file set and extractor list (ordered by ascending
priority), the partition of ExtractWithAll assigns each file to exactly
one extractor — the first (highest-priority) one whose
FilterFiles/IsFileSupported claims it — or to none when no extractor
supports it; no file appears in two partitions, and a claimed file is
removed from the pool seen by lower-priority extractors. -/
theorem extract_with_all_partition_spec (es : List Extractor) (files : List String)
    (f : String) (hf : f ∈ files) :
    ((∃ e ∈ es, e.supported f = true) →
        (partitions es files).countP (fun p => decide (f ∈ p.2)) = 1 ∧
        f ∉ unclaimed es files) ∧
    ((∀ e ∈ es, e.supported f = false) →
        (partitions es files).countP (fun p => decide (f ∈ p.2)) = 0 ∧
        f ∈ unclaimed es files) ∧
    (∀ p ∈ partitions es files, f ∈ p.2 →
        p.1.supported f = true ∧ firstSupporting es f = some p.1) ∧
    (es.Sorted priorityLE → ∀ p ∈ partitions es files, f ∈ p.2 →
        ∀ e ∈ es, e.supported f = true → priorityLE p.1 e) := by
  refine ⟨fun hs => claim_count_one es files f hf hs,
          fun hs => claim_count_zero_unsupported es files f hf hs,
          fun p hp hfp => claimant_is_first_supporting es files p hp f hfp,
          fun hsorted p hp hfp e he hsupp => ?_⟩
  exact first_supporting_min es f p.1
    (claimant_is_first_supporting es files p hp f hfp).2 hsorted e he hsupp

/-- C1 witness: one file supported by the high-priority sample extractor
is claimed exactly once and is not left unclaimed. -/
theorem extract_with_all_partition_spec_witness :
    (partitions [sampleExtractorB, sampleExtractorA] ["x.cpp"]).countP
        (fun p => decide ("x.cpp" ∈ p.2)) = 1 ∧
    "x.cpp" ∉ unclaimed [sampleExtractorB, sampleExtractorA] ["x.cpp"] :=
  (extract_with_all_partition_spec [sampleExtractorB, sampleExtractorA] ["x.cpp"]
      "x.cpp" (List.mem_singleton.mpr rfl)).1
    ⟨sampleExtractorB, List.mem_cons_self _ _, rfl⟩

/-- C5: the boolean conversion of ExtractionOutput is false exactly when
pot_file is empty, and when every extractor output in a run is empty the
pipeline returns the all-empty ExtractionOutput value (the documented
sentinel) rather than failing. -/
theorem empty_extraction_sentinel_spec :
    (∀ o : ExtractionOutput, o.toBool = false ↔ o.pot_file = "") ∧
    (∀ (es : List Extractor) (files : List String),
      (∀ p ∈ partitions es files, (p.1.extract p.2).pot_file = "") →
        Extractor.ExtractWithAll es files = { pot_file := "", errors := [] }) := by
  constructor
  · intro o
    simp [ExtractionOutput.toBool, String.isEmpty_iff]
  · intro es files h
    unfold Extractor.ExtractWithAll
    have hnil : (((partitions es files).filter (fun p => !p.2.isEmpty)).map
        (fun p => p.1.extract p.2)).filter ExtractionOutput.toBool = [] := by
      rw [List.filter_eq_nil_iff]
      intro o ho
      obtain ⟨p, hp, rfl⟩ := List.mem_map.mp ho
      have hp' : p ∈ partitions es files := List.mem_of_mem_filter hp
      simp only [ExtractionOutput.toBool, h p hp']
      decide
    rw [hnil]
    rfl

/-- C5 witness: a run in which the only extractor produces an empty
output yields the all-empty sentinel. -/
theorem empty_extraction_sentinel_spec_witness :
    Extractor.ExtractWithAll [sampleExtractorB] ["x.cpp"] =
      { pot_file := "", errors := [] } :=
  empty_extraction_sentinel_spec.2 [sampleExtractorB] ["x.cpp"]
    (by
      intro p hp
      rw [partitions_cons, partitions_nil] at hp
      rw [List.mem_singleton] at hp
      subst hp
      rfl)

/-- C2: CollectAllFiles fails with NoSourcesFound when the search paths
hold no candidate files after the excluded-path rules, and with
PermissionDenied naming the path when a search path cannot be read; the
failure is an ExtractionException whose error is drawn from the
three-value taxonomy and whose file field defaults to the empty string
when the failure is not file-specific. -/
theorem collect_all_files_errors_spec (fs : FileSystem) (spec : SourceCodeSpec) :
    (∀ err : ExtractionError,
      err = ExtractionError.Unspecified ∨ err = ExtractionError.NoSourcesFound ∨
      err = ExtractionError.PermissionDenied) ∧
    (∀ p, spec.SearchPaths.find? (fun q => !fs.readable q) = some p →
      CollectAllFiles fs spec =
        Except.error { error := ExtractionError.PermissionDenied, file := p }) ∧
    ((∀ p ∈ spec.SearchPaths, fs.readable p = true) →
      ((spec.SearchPaths.map fs.filesUnder).flatten.filter
          (fun f => !matchesExcluded spec f)) = [] →
      CollectAllFiles fs spec =
        Except.error { error := ExtractionError.NoSourcesFound, file := "" }) := by
  refine ⟨?_, ?_, ?_⟩
  · intro err
    cases err <;> simp
  · intro p hp
    unfold CollectAllFiles
    rw [hp]
  · intro hread hempty
    have hfind : spec.SearchPaths.find? (fun q => !fs.readable q) = none := by
      rw [List.find?_eq_none]
      intro q hq
      simp [hread q hq]
    unfold CollectAllFiles
    rw [hfind, hempty]
    rfl

/-- C2 witness: an unreadable search path yields PermissionDenied naming
it, and a readable but empty tree yields NoSourcesFound with an empty
file field. -/
theorem collect_all_files_errors_spec_witness :
    CollectAllFiles deniedFS sampleSpec =
      Except.error { error := ExtractionError.PermissionDenied, file := "src" } ∧
    CollectAllFiles emptyFS sampleSpec =
      Except.error { error := ExtractionError.NoSourcesFound, file := "" } :=
  ⟨(collect_all_files_errors_spec deniedFS sampleSpec).2.1 "src" rfl,
   (collect_all_files_errors_spec emptyFS sampleSpec).2.2 (fun _ _ => rfl) rfl⟩

/-- C3: a successful CollectAllFiles result is strictly sorted by the
wxString operator< and duplicate-free, and the function is deterministic:
the same file system and spec give the same list. -/
theorem collect_all_files_sorted_spec (fs : FileSystem) (spec : SourceCodeSpec)
    (l : List String) (h : CollectAllFiles fs spec = Except.ok l) :
    l.Sorted pathLT ∧ l.Nodup ∧ CollectAllFiles fs spec = CollectAllFiles fs spec := by
  refine ⟨?_, ?_, rfl⟩ <;>
  · unfold CollectAllFiles at h
    cases hfind : spec.SearchPaths.find? (fun q => !fs.readable q) with
    | some p => rw [hfind] at h; simp at h
    | none =>
      rw [hfind] at h
      by_cases hemp : (List.insertionSort pathLE
          (((spec.SearchPaths.map fs.filesUnder).flatten.filter
            (fun f => !matchesExcluded spec f)).dedup)).isEmpty = true
      · rw [if_pos hemp] at h; simp at h
      · rw [if_neg hemp] at h
        have hl : l = List.insertionSort pathLE
            (((spec.SearchPaths.map fs.filesUnder).flatten.filter
              (fun f => !matchesExcluded spec f)).dedup) := by
          exact (Except.ok.injEq _ _).mp h.symm
        subst hl
        have hsorted := List.sorted_insertionSort pathLE
          ((((spec.SearchPaths.map fs.filesUnder).flatten.filter
            (fun f => !matchesExcluded spec f)).dedup))
        have hnodup : (List.insertionSort pathLE
            ((((spec.SearchPaths.map fs.filesUnder).flatten.filter
              (fun f => !matchesExcluded spec f)).dedup))).Nodup :=
          (List.perm_insertionSort pathLE _).nodup_iff.mpr (List.nodup_dedup _)
        first
        | exact (hsorted.and hnodup).imp (fun hab => by
            obtain ⟨hle, hne⟩ := hab
            have : _ ≠ _ := hne
            exact lt_of_le_of_ne hle (fun hd => this (by
              cases ‹String› <;> exact String.ext hd)))
        | exact hnodup

/-- C3 witness: a concrete unchanged tree gives the sorted duplicate-free
list, twice. -/
theorem collect_all_files_sorted_spec_witness :
    List.Sorted pathLT ["a.c", "b.c"] ∧ (["a.c", "b.c"] : List String).Nodup ∧
    CollectAllFiles sampleFS sampleSpec = CollectAllFiles sampleFS sampleSpec :=
  collect_all_files_sorted_spec sampleFS sampleSpec ["a.c", "b.c"] rfl

/-- Inserting an entry whose key is fresh appends it at the end. -/
theorem insertEntry_of_fresh_key (acc : List POEntry) (e : POEntry)
    (h : e.key ∉ entryKeys acc) : insertEntry acc e = acc ++ [e] := by
  unfold insertEntry
  rw [if_neg]
  simp only [List.any_eq_true, decide_eq_true_eq, not_exists, not_and]
  intro a ha hk
  exact h (by rw [← hk]; exact List.mem_map_of_mem POEntry.key ha)

/-- Merging the references of an entry with themselves changes nothing. -/
theorem mergeRefs_self (a : List String) : mergeRefs a a = a := by
  unfold mergeRefs
  have : a.filter (fun r => decide (r ∉ a)) = [] := by
    rw [List.filter_eq_nil_iff]
    intro r hr
    simp [hr]
  rw [this, List.append_nil]

/-- Unfolding lemma: the key sequence of the empty output. -/
theorem entryKeys_nil : entryKeys [] = [] := rfl

/-- Unfolding lemma: the key sequence of a cons. -/
theorem entryKeys_cons (y : POEntry) (ys : List POEntry) :
    entryKeys (y :: ys) = y.key :: entryKeys ys := rfl

/-- The key sequence of an append is the append of key sequences. -/
theorem entryKeys_append (a b : List POEntry) :
    entryKeys (a ++ b) = entryKeys a ++ entryKeys b := by
  simp [entryKeys]

/-- Inserting an entry already present in a duplicate-free accumulator is
the identity. -/
theorem insertEntry_of_mem (acc : List POEntry) (e : POEntry)
    (hnd : (entryKeys acc).Nodup) (he : e ∈ acc) : insertEntry acc e = acc := by
  unfold insertEntry
  rw [if_pos]
  · have inj := List.inj_on_of_nodup_map (f := POEntry.key)
      (by simpa [entryKeys] using hnd)
    have : ∀ a ∈ acc,
        (if a.key = e.key then
          { a with references := mergeRefs a.references e.references } else a) = a := by
      intro a ha
      by_cases hk : a.key = e.key
      · have : a = e := inj ha he hk
        subst this
        simp [mergeRefs_self]
      · simp [hk]
    calc acc.map _ = acc.map id := List.map_congr_left this
    _ = acc := List.map_id acc
  · simp only [List.any_eq_true, decide_eq_true_eq]
    exact ⟨e, he, rfl⟩

/-- Folding a batch of fresh-keyed entries into an accumulator appends
them in order. -/
theorem foldl_insertEntry_disjoint :
    ∀ (ys acc : List POEntry), (entryKeys ys).Nodup →
      (∀ k ∈ entryKeys ys, k ∉ entryKeys acc) →
      ys.foldl insertEntry acc = acc ++ ys := by
  intro ys
  induction ys with
  | nil => intro acc _ _; simp
  | cons y ys ih =>
    intro acc hnd hdisj
    have hy : y.key ∉ entryKeys acc :=
      hdisj y.key (List.mem_map_of_mem POEntry.key (List.mem_cons_self y ys))
    have step : insertEntry acc y = acc ++ [y] := insertEntry_of_fresh_key acc y hy
    rw [entryKeys_cons] at hnd hdisj
    have hnd' : (entryKeys ys).Nodup := (List.nodup_cons.mp hnd).2
    have hdisj' : ∀ k ∈ entryKeys ys, k ∉ entryKeys (acc ++ [y]) := by
      intro k hk hmem
      rw [entryKeys_append, entryKeys_cons, entryKeys_nil] at hmem
      rcases List.mem_append.mp hmem with hmem | hmem
      · exact hdisj k (List.mem_cons_of_mem _ hk) hmem
      · rw [List.mem_singleton] at hmem
        subst hmem
        exact (List.nodup_cons.mp hnd).1 hk
    calc (y :: ys).foldl insertEntry acc = ys.foldl insertEntry (acc ++ [y]) := by
          rw [List.foldl_cons, step]
    _ = (acc ++ [y]) ++ ys := ih (acc ++ [y]) hnd' hdisj'
    _ = acc ++ (y :: ys) := by simp

/-- Folding entries that are already present in a duplicate-free
accumulator is the identity. -/
theorem foldl_insertEntry_subset :
    ∀ (ys acc : List POEntry), (entryKeys acc).Nodup →
      (∀ y ∈ ys, y ∈ acc) → ys.foldl insertEntry acc = acc := by
  intro ys
  induction ys with
  | nil => intro acc _ _; rfl
  | cons y ys ih =>
    intro acc hnd hsub
    have step : insertEntry acc y = acc :=
      insertEntry_of_mem acc y hnd (hsub y (List.mem_cons_self y ys))
    rw [List.foldl_cons, step]
    exact ih acc hnd (fun z hz => hsub z (List.mem_cons_of_mem y hz))

/-- C6: concatenating two duplicate-free partial outputs with disjoint
msgid+context key sets preserves first-seen entry order and yields their
union with no duplicate keys; concatenating an output with itself yields
the same entry list with reference comments merged, never duplicated
entries. -/
theorem concat_partials_spec (xs ys : List POEntry)
    (hx : (entryKeys xs).Nodup) (hy : (entryKeys ys).Nodup)
    (hdisj : ∀ k ∈ entryKeys xs, k ∉ entryKeys ys) :
    ConcatPartialsEntries [xs, ys] = xs ++ ys ∧
    (entryKeys (xs ++ ys)).Nodup ∧
    ConcatPartialsEntries [xs, xs] = xs := by
  have hfirst : xs.foldl insertEntry [] = xs := by
    have := foldl_insertEntry_disjoint xs [] hx (by simp [entryKeys])
    simpa using this
  refine ⟨?_, ?_, ?_⟩
  · show (ys.foldl insertEntry (xs.foldl insertEntry [])) = xs ++ ys
    rw [hfirst]
    exact foldl_insertEntry_disjoint ys xs hy
      (fun k hk hmem => hdisj k hmem hk)
  · simp only [entryKeys, List.map_append]
    rw [List.nodup_append]
    exact ⟨by simpa [entryKeys] using hx, by simpa [entryKeys] using hy,
      by
        intro k hk hk'
        exact hdisj k (by simpa [entryKeys] using hk) (by simpa [entryKeys] using hk')⟩
  · show (xs.foldl insertEntry (xs.foldl insertEntry [])) = xs
    rw [hfirst]
    exact foldl_insertEntry_subset xs xs hx (fun y hy => hy)

/-- C6 witness: two concrete disjoint singleton outputs concatenate to
their ordered union, and self-concatenation is the identity. -/
theorem concat_partials_spec_witness :
    ConcatPartialsEntries [[entryOne], [entryTwo]] = [entryOne] ++ [entryTwo] ∧
    (entryKeys ([entryOne] ++ [entryTwo])).Nodup ∧
    ConcatPartialsEntries [[entryOne], [entryOne]] = [entryOne] :=
  concat_partials_spec [entryOne] [entryTwo] (by decide) (by decide) (by decide)

/-- Unfolding lemma: the key sequence of a cons of catalog items. -/
theorem itemKeys_cons (i : CatalogItem) (l : List CatalogItem) :
    itemKeys (i :: l) = i.key :: itemKeys l := rfl

/-- A key present in the catalog is found by findByKey. -/
theorem findByKey_isSome_of_mem (items : List CatalogItem)
    (k : String × Option String) (h : k ∈ itemKeys items) :
    (findByKey items k).isSome = true := by
  obtain ⟨i, hi, rfl⟩ := List.mem_map.mp h
  unfold findByKey
  rw [List.find?_isSome]
  exact ⟨i, hi, by simp⟩

/-- What findByKey returns is a member of the catalog carrying the key. -/
theorem mem_of_findByKey_eq_some (items : List CatalogItem)
    (k : String × Option String) (it : CatalogItem)
    (h : findByKey items k = some it) : it ∈ items ∧ it.key = k := by
  unfold findByKey at h
  exact ⟨List.mem_of_find?_eq_some h, by simpa using List.find?_some h⟩

/-- In a catalog with duplicate-free keys, findByKey at a member's key
returns exactly that member. -/
theorem findByKey_self (items : List CatalogItem)
    (hnd : (itemKeys items).Nodup) (j : CatalogItem) (hj : j ∈ items) :
    findByKey items j.key = some j := by
  induction items with
  | nil => cases hj
  | cons i items ih =>
    rw [itemKeys_cons] at hnd
    rcases List.mem_cons.mp hj with rfl | hj
    · unfold findByKey
      rw [List.find?_cons_of_pos _ (by simp)]
    · by_cases hik : i.key = j.key
      · exfalso
        have : j.key ∈ itemKeys items := List.mem_map_of_mem CatalogItem.key hj
        exact (List.nodup_cons.mp hnd).1 (hik ▸ this)
      · unfold findByKey
        rw [List.find?_cons_of_neg _ (by simp [hik])]
        exact ih (List.nodup_cons.mp hnd).2 hj

/-- C7: merging a catalog with a new-strings set whose key set equals the
catalog's current key set changes no item's translation, fuzzy flag or
modified flag, and the reported statistics are zero added, zero obsolete
and zero fuzzy-matched. -/
theorem merge_no_changes_spec (behavior : MergeBehavior)
    (fuzzy tm : POEntry → Option CatalogItem)
    (old : List CatalogItem) (news : List POEntry)
    (hk : ∀ k, k ∈ entryKeys news ↔ k ∈ itemKeys old)
    (hnd : (itemKeys old).Nodup) :
    (mergeCatalog behavior fuzzy tm old news).2 =
      { added := 0, obsolete := 0, fuzzyMatched := 0 } ∧
    (∀ it ∈ (mergeCatalog behavior fuzzy tm old news).1,
      ∃ j ∈ old, j.key = it.key ∧ j.translation = it.translation ∧
        j.isFuzzy = it.isFuzzy ∧ j.isModified = it.isModified) ∧
    (∀ j ∈ old, ∃ it ∈ (mergeCatalog behavior fuzzy tm old news).1,
      it.key = j.key ∧ it.translation = j.translation ∧
        it.isFuzzy = j.isFuzzy ∧ it.isModified = j.isModified) := by
  have hsome : ∀ e ∈ news, (findByKey old e.key).isSome = true := fun e he =>
    findByKey_isSome_of_mem old e.key
      ((hk e.key).mp (List.mem_map_of_mem POEntry.key he))
  refine ⟨?_, ?_, ?_⟩
  · have h1 : news.filter (fun e => (findByKey old e.key).isNone) = [] := by
      rw [List.filter_eq_nil_iff]
      intro e he
      obtain ⟨v, hv⟩ := Option.isSome_iff_exists.mp (hsome e he)
      simp [hv]
    have h2 : old.filter (fun i => !news.any (fun e => decide (e.key = i.key))) = [] := by
      rw [List.filter_eq_nil_iff]
      intro i hi
      have : i.key ∈ entryKeys news :=
        (hk i.key).mpr (List.mem_map_of_mem CatalogItem.key hi)
      obtain ⟨e, he, hek⟩ := List.mem_map.mp this
      simp only [Bool.not_eq_true', Bool.not_eq_false, List.any_eq_true,
        decide_eq_true_eq]
      exact ⟨e, he, hek⟩
    have h3 : news.filter (fun e =>
        (findByKey old e.key).isNone && (fuzzyCandidate behavior fuzzy tm e).isSome) = [] := by
      rw [List.filter_eq_nil_iff]
      intro e he
      obtain ⟨v, hv⟩ := Option.isSome_iff_exists.mp (hsome e he)
      simp [hv]
    show ({ added := _, obsolete := _, fuzzyMatched := _ } : MergeStats) = _
    rw [h1, h2, h3]
    rfl
  · intro it hit
    obtain ⟨e, he, rfl⟩ := List.mem_map.mp hit
    obtain ⟨j, hfind⟩ := Option.isSome_iff_exists.mp (hsome e he)
    refine ⟨j, (mem_of_findByKey_eq_some old e.key j hfind).1, ?_⟩
    simp [mergeItem, hfind, CatalogItem.key]
  · intro j hj
    have : j.key ∈ entryKeys news :=
      (hk j.key).mpr (List.mem_map_of_mem CatalogItem.key hj)
    obtain ⟨e, he, hek⟩ := List.mem_map.mp this
    have hfind : findByKey old e.key = some j := by
      rw [hek]
      exact findByKey_self old hnd j hj
    refine ⟨mergeItem behavior fuzzy tm old e,
      List.mem_map_of_mem (mergeItem behavior fuzzy tm old) he, ?_⟩
    simp [mergeItem, hfind, CatalogItem.key]

/-- C7 witness: merging a one-item catalog with the identical key set
reports zero added, zero obsolete and zero fuzzy-matched. -/
theorem merge_no_changes_spec_witness :
    (mergeCatalog MergeBehavior.Merge_FuzzyMatch noOracle noOracle
        [itemOne] [entryOne]).2 =
      { added := 0, obsolete := 0, fuzzyMatched := 0 } :=
  (merge_no_changes_spec MergeBehavior.Merge_FuzzyMatch noOracle noOracle [itemOne]
      [entryOne] (fun _ => Iff.rfl) (by decide)).1

/-- C8: under Merge_None every new key absent from the old catalog
produces an entry that is untranslated and not fuzzy, for every input and
independently of the similarity and translation-memory oracles. -/
theorem merge_none_untranslated_spec (fuzzy tm : POEntry → Option CatalogItem)
    (old : List CatalogItem) (news : List POEntry) (e : POEntry)
    (he : e ∈ news) (habs : e.key ∉ itemKeys old) :
    mergeItem MergeBehavior.Merge_None fuzzy tm old e = newUntranslatedItem e ∧
    newUntranslatedItem e ∈
      (mergeCatalog MergeBehavior.Merge_None fuzzy tm old news).1 ∧
    (newUntranslatedItem e).isTranslated = false ∧
    (newUntranslatedItem e).isFuzzy = false ∧
    (newUntranslatedItem e).translation = "" := by
  have hfind : findByKey old e.key = none := by
    unfold findByKey
    rw [List.find?_eq_none]
    intro i hi
    simp only [decide_eq_true_eq]
    intro hik
    exact habs (hik ▸ List.mem_map_of_mem CatalogItem.key hi)
  have h1 : mergeItem MergeBehavior.Merge_None fuzzy tm old e =
      newUntranslatedItem e := by
    simp [mergeItem, hfind, fuzzyCandidate]
  refine ⟨h1, ?_, rfl, rfl, rfl⟩
  have hmem := List.mem_map_of_mem (mergeItem MergeBehavior.Merge_None fuzzy tm old) he
  rw [h1] at hmem
  exact hmem

/-- C8 witness: a concrete fresh key merged under Merge_None is present,
untranslated and not fuzzy. -/
theorem merge_none_untranslated_spec_witness :
    mergeItem MergeBehavior.Merge_None noOracle noOracle [] entryTwo =
      newUntranslatedItem entryTwo ∧
    newUntranslatedItem entryTwo ∈
      (mergeCatalog MergeBehavior.Merge_None noOracle noOracle [] [entryTwo]).1 ∧
    (newUntranslatedItem entryTwo).isTranslated = false ∧
    (newUntranslatedItem entryTwo).isFuzzy = false ∧
    (newUntranslatedItem entryTwo).translation = "" :=
  merge_none_untranslated_spec noOracle noOracle [] [entryTwo] entryTwo
    (List.mem_singleton.mpr rfl) (by decide)
